import Mathlib

/-!
Verification of the GoatDB anti-entropy synchronization core: a shallow
embedding of `src/cfds/base/schema-manager.ts` (schema registry, upgrade
engine, authorization matcher) and of the `SyncMessage` class (build,
serialize and deserialize paths), with theorems settling the specified
properties against the code.

Modelling conventions:
- JavaScript strings are Lean `String`; string primitives used by the code
  (`split`, `parseInt`, number-to-string interpolation) are re-implemented
  on `String.data` so that everything reduces by `rfl`/`decide`.
- JS `undefined`/`null` returns become `Option`; a thrown assertion becomes
  `Except.error`.
- JS falsiness matters: in `SchemaManager.get` the check `version ? ... : ...`
  treats `0` and `NaN` as absent, which the model reproduces.
- Functions of the repository that live outside the provided sources
  (`itemPathGetRepoId`, `Repository.normalizePath`, `coreValueClone`,
  `CoroutineScheduler.map`, the null schema constant) are modelled from the
  spec; each such definition says so in its doc comment.
-/

/-! ### Character and string utilities -/

/-- Splits a list of characters on a separator character, in the manner of
JavaScript `String.prototype.split` with a single-character separator: the
result is the (possibly empty) fields between separators and is never the
empty list. -/
def splitOnChar (c : Char) : List Char → List (List Char)
  | [] => [[]]
  | x :: xs =>
    match splitOnChar c xs with
    | [] => [[]]
    | h :: t => if x = c then [] :: h :: t else (x :: h) :: t

/-- The decimal digit character for a value below ten. -/
def digitChar (d : Nat) : Char :=
  match d with
  | 0 => '0' | 1 => '1' | 2 => '2' | 3 => '3' | 4 => '4'
  | 5 => '5' | 6 => '6' | 7 => '7' | 8 => '8' | _ => '9'

/-- True exactly on the ASCII decimal digits. -/
def isDigitCh (c : Char) : Bool :=
  48 ≤ c.toNat && c.toNat ≤ 57

/-- Numeric value of an ASCII digit character. -/
def digitVal (c : Char) : Nat := c.toNat - 48

/-- Worker for `natDigitsRev`, structurally recursive on a fuel argument so
that it evaluates by kernel reduction; the fuel only needs to dominate the
number of digits. -/
def natDigitsRevAux : Nat → Nat → List Char
  | 0, _ => []
  | fuel + 1, n => if n = 0 then [] else digitChar (n % 10) :: natDigitsRevAux fuel (n / 10)

/-- Decimal digits of a number, least significant first; empty for zero. -/
def natDigitsRev (n : Nat) : List Char :=
  natDigitsRevAux n n

/-- Decimal representation of a number, as JavaScript template interpolation
of a non-negative integer produces it. -/
def natToChars (n : Nat) : List Char :=
  if n = 0 then ['0'] else (natDigitsRev n).reverse

/-- Models JavaScript `parseInt` on the canonical decimal markers the code
produces: reads the leading run of decimal digits, and returns `none` (the
model of `NaN`) when the input does not start with a digit. -/
def parseLeadingNat (l : List Char) : Option Nat :=
  let ds := l.takeWhile isDigitCh
  if ds.isEmpty then none
  else some (ds.foldl (fun a c => 10 * a + digitVal c) 0)

/-- Boolean test that `pat` occurs as a prefix of `l`. -/
def startsWithChars : List Char → List Char → Bool
  | [], _ => true
  | _ :: _, [] => false
  | a :: as, b :: bs => a = b && startsWithChars as bs

/-- Boolean test that `pat` occurs as a contiguous run inside `l`. -/
def containsChars (pat : List Char) (l : List Char) : Bool :=
  match l with
  | [] => pat.isEmpty
  | _ :: t => startsWithChars pat l || containsChars pat t

/-- Joins path components with slashes. -/
def joinSlash : List (List Char) → List Char
  | [] => []
  | [a] => a
  | a :: rest => a ++ '/' :: joinSlash rest

/-- Modelled from the spec: `itemPathGetRepoId` (from `mod.ts`, not among the
provided sources) returns the repository-id component of an item path — the
path normalized to a leading slash, keeping the first two non-empty
slash-separated components and dropping any item-key suffix. -/
def itemPathGetRepoId (p : String) : String :=
  let comps := (splitOnChar '/' p.data).filter (fun x => x ≠ [])
  String.mk ('/' :: joinSlash (comps.take 2))

/-- Modelled from the spec: `Repository.normalizePath` (from `mod.ts`, not
among the provided sources) normalizes a repository path string to a leading
slash with no empty components and no trailing slash. -/
def Repository.normalizePath (p : String) : String :=
  let comps := (splitOnChar '/' p.data).filter (fun x => x ≠ [])
  String.mk ('/' :: joinSlash comps)

/-! ### Schemas and the schema manager -/

/-- A schema, after `schema.ts` and the spec's data model: a nullable
namespace, a version, and an optional upgrade function taking the previous
version's data and the identity (namespace and version) of the schema it is
upgrading from. The data payload type is a parameter `D`. -/
structure Schema (D : Type) where
  ns : Option String
  version : Nat
  upgrade : Option (D → Option String × Nat → D)

/-- Modelled from the spec: `kNullSchema` (from `schema.ts`, not among the
provided sources) is the universal empty schema — null namespace, base
version, no upgrade function. Its marker encodes to the literal string
consisting of the four letters n, u, l, l. -/
def kNullSchema (D : Type) : Schema D := Schema.mk none 0 none

/-- The kind of access being requested. -/
inductive AuthOp
  | read
  | write
deriving DecidableEq, BEq

/-- A session, of which the core reads only the owner principal. -/
structure Session where
  owner : String

/-- An authorization rule callback `(db, repoPath, itemKey, session, op)`;
the `db` handle is opaque to the matcher and modelled as `Unit`. -/
def AuthRule : Type := Unit → String → String → Session → AuthOp → Bool

/-- A rule path is either a string or a regular expression; a regular
expression is modelled by its test function. JavaScript `===` on rule paths
is string equality on two strings and reference inequality otherwise, which
`rulePathEqJS` reproduces for distinct objects. -/
inductive RulePath
  | str (s : String)
  | regex (test : String → Bool)

/-- JavaScript strict equality restricted to rule paths: two strings compare
by value; a regular expression object never equals a string, and two
separately constructed regular expressions are distinct objects. -/
def rulePathEqJS : RulePath → RulePath → Bool
  | RulePath.str a, RulePath.str b => a = b
  | _, _ => false

/-- The schema manager state: the namespace map (`_schemas`, an association
list of namespace to its schema array kept in descending version order) and
the user-registered auth rules (`_authRules`, in registration order). -/
structure SchemaManager (D : Type) where
  schemas : List (String × List (Schema D))
  authRules : List (RulePath × AuthRule)

/-- Lookup in the namespace map, after `Map.prototype.get`. -/
def schemasFind {D : Type} : List (String × List (Schema D)) → String → Option (List (Schema D))
  | [], _ => none
  | (k, arr) :: t, ns => if k = ns then some arr else schemasFind t ns

/-- SchemaManager.get: returns the requested version for the namespace, or
the first (highest-version) entry when the version argument is absent.
The source reads `version ? arr.find(...) : arr[0]`, so a version of `0`
(or `NaN`, modelled as `none`) is falsy and also yields the first entry. -/
def SchemaManager.get {D : Type} (m : SchemaManager D) (ns : String) (version : Option Nat) : Option (Schema D) :=
  match schemasFind m.schemas ns with
  | none => none
  | some arr =>
    match version with
    | some v => if v = 0 then arr.head? else arr.find? (fun s => s.version == v)
    | none => arr.head?

/-- Ordered insert keeping the array sorted by descending version; models the
`push` followed by `sort((s1, s2) => s2.version - s1.version)` of
`registerSchema` on an array that is already sorted. -/
def insertByVersionDesc {D : Type} (s : Schema D) : List (Schema D) → List (Schema D)
  | [] => [s]
  | a :: t => if a.version < s.version then s :: a :: t else a :: insertByVersionDesc s t

/-- Insert a schema into the namespace map under key `n`, skipping the insert
when the version is already present (registration is idempotent on the
namespace-version pair). -/
def schemasInsert {D : Type} : List (String × List (Schema D)) → String → Schema D → List (String × List (Schema D))
  | [], n, s => [(n, [s])]
  | (k, arr) :: t, n, s =>
    if k = n then
      (k, if arr.any (fun x => x.version == s.version) then arr else insertByVersionDesc s arr) :: t
    else (k, arr) :: schemasInsert t n s

/-- SchemaManager.registerSchema: asserts the namespace is non-null, then
inserts the schema into its namespace array unless the version is already
registered, keeping the array sorted by descending version. -/
def SchemaManager.registerSchema {D : Type} (m : SchemaManager D) (s : Schema D) : Except String (SchemaManager D) :=
  match s.ns with
  | none => Except.error "assertion failed: schema.ns !== null"
  | some n => Except.ok (SchemaManager.mk (schemasInsert m.schemas n s) m.authRules)

/-- SchemaManager.registerAuthRule: normalizes a string path to its
repository id, then walks the existing rules asserting — as the source
literally does — that each existing rule path strictly equals the new path,
and finally appends the rule. -/
def SchemaManager.registerAuthRule {D : Type} (m : SchemaManager D) (path : RulePath) (rule : AuthRule) : Except String (SchemaManager D) :=
  let path' :=
    match path with
    | RulePath.str s => RulePath.str (itemPathGetRepoId s)
    | r => r
  if m.authRules.all (fun e => rulePathEqJS e.1 path') then
    Except.ok (SchemaManager.mk m.schemas (m.authRules ++ [(path', rule)]))
  else
    Except.error "Attempting to register multiple rules for the same path"

/-- Models `coreValueClone` (from `clone.ts`, not among the provided
sources). Modelled from the spec: data is deep-cloned before mutation; in a
pure value model a deep clone is the identity. -/
def coreValueClone {D : Type} (d : D) : D := d

/-- Worker for `upgradeLoop`, structurally recursive on the number of
remaining loop iterations so that it evaluates by kernel reduction. -/
def upgradeLoopAux {D : Type} (m : SchemaManager D) (ns : String) : Nat → Schema D → D → Nat → Option (D × Schema D)
  | 0, cur, d, _ => some (d, cur)
  | k + 1, cur, d, i =>
    match m.get ns (some i) with
    | none => none
    | some s =>
      upgradeLoopAux m ns k s
        (match s.upgrade with
         | some u => u d (cur.ns, cur.version)
         | none => d)
        (i + 1)

/-- The upgrade walk of SchemaManager.upgrade: the source's
`for (let i = dataSchema.version + 1; i <= latest.version; ++i)` loop,
carrying the current schema and the data being upgraded; a missing
intermediate version aborts with `none` (the source's `undefined`). -/
def upgradeLoop {D : Type} (m : SchemaManager D) (ns : String) (cur : Schema D) (d : D) (i stop : Nat) : Option (D × Schema D) :=
  upgradeLoopAux m ns (stop + 1 - i) cur d i

/-- JS truthiness of the optional namespace string used in
`targetSchema?.ns || dataSchema.ns!`: null, undefined and the empty string
are falsy. -/
def nsTruthy : Option String → Bool
  | none => false
  | some s => s ≠ ""

/-- SchemaManager.upgrade, translated clause by clause from the source:
the null-schema fast path, the `targetSchema?.ns || dataSchema.ns!`
namespace resolution, the `this.get(ns, targetSchema?.version)` lookup with
its `!latest || latest.version === dataSchema.version` early return, and the
cloned upgrade walk. The source's assertion between the fast path and the
resolution can never fire, so no error case is modelled. -/
def SchemaManager.upgrade {D : Type} (m : SchemaManager D) (data : D) (dataSchema : Schema D) (targetSchema : Option (Schema D)) : Option (D × Schema D) :=
  let targetNsNull :=
    match targetSchema with
    | none => true
    | some t => t.ns.isNone
  if targetNsNull && dataSchema.ns.isNone then some (data, kNullSchema D)
  else
    let nsOpt :=
      if nsTruthy (targetSchema.bind Schema.ns) then targetSchema.bind Schema.ns
      else dataSchema.ns
    match nsOpt with
    | none => some (data, dataSchema)
    | some ns =>
      match m.get ns (targetSchema.map Schema.version) with
      | none => some (data, dataSchema)
      | some latest =>
        if latest.version = dataSchema.version then some (data, dataSchema)
        else upgradeLoop m ns dataSchema (coreValueClone data) (dataSchema.version + 1) latest.version

/-- SchemaManager.encode: the literal marker for the null schema, and the
namespace-slash-version marker otherwise. -/
def SchemaManager.encode {D : Type} (_m : SchemaManager D) (s : Schema D) : String :=
  match s.ns with
  | none => "null"
  | some n => String.mk (n.data ++ '/' :: natToChars s.version)

/-- SchemaManager.decode: the null marker decodes to the null schema; any
other marker is split on slashes, the first field is the namespace, the
second is parsed as an integer (`NaN` modelled as `none`), and the pair is
looked up in the registry. -/
def SchemaManager.decode {D : Type} (m : SchemaManager D) (str : String) : Option (Schema D) :=
  if str = "null" then some (kNullSchema D)
  else
    let parts := splitOnChar '/' str.data
    let ns := String.mk (parts.headD [])
    let ver : Option Nat := (parts.drop 1).head?.bind parseLeadingNat
    m.get ns ver

/-- The test function of the builtin catch-all regular expression
`/[/]sys[/]\S*/g`: since the non-space run may be empty, the non-anchored
test succeeds exactly when the input contains the five characters
slash-s-y-s-slash. The source resets `lastIndex` before every test, so the
model's statelessness is faithful. -/
def sysRegexTest (p : String) : Bool :=
  containsChars ['/', 's', 'y', 's', '/'] p.data

/-- The builtin authorization rules, in source order: `/sys/users` (readable
by anyone, writable by the item's owner or root), `/sys/sessions` (readable
by anyone, writable by root), `/sys/stats` (root only), and the reserved
`/sys/**` catch-all regular expression (root only). -/
def kBuiltinAuthRules : List (RulePath × AuthRule) :=
  [ (RulePath.str "/sys/users", fun _ _ itemKey session op =>
      if session.owner = "root" then true
      else if session.owner = itemKey then true
      else op == AuthOp.read),
    (RulePath.str "/sys/sessions", fun _ _ _ session op =>
      if session.owner = "root" then true
      else op == AuthOp.read),
    (RulePath.str "/sys/stats", fun _ _ _ session _ =>
      session.owner = "root"),
    (RulePath.regex sysRegexTest, fun _ _ _ session _ =>
      session.owner = "root") ]

/-- SchemaManager.authRuleForRepo: computes the repository id of the input
path, scans the builtin rules first comparing each rule path to the repo id
with JavaScript strict equality (so the regular-expression entry can never
match there), then scans the user rules, normalizing string paths and
testing regular expressions against the raw input path. -/
def SchemaManager.authRuleForRepo {D : Type} (m : SchemaManager D) (inputPath : String) : Option AuthRule :=
  let repoId := itemPathGetRepoId inputPath
  match kBuiltinAuthRules.find? (fun e =>
      match e.1 with
      | RulePath.str s => s = repoId
      | RulePath.regex _ => false) with
  | some e => some e.2
  | none =>
    (m.authRules.find? (fun e =>
        match e.1 with
        | RulePath.str s => Repository.normalizePath s = repoId
        | RulePath.regex t => t inputPath)).map (fun e => e.2)

/-! ### The sync message -/

/-- An idealized bloom filter as the sync-message claims need it: the
declared size hint and the exact list of IDs added, in insertion order. The
peer's filter appears in `SyncMessage.build` only through its `has` test and
is therefore passed as a plain membership function. The target
false-positive rate computed inside `build` is real-valued and is modelled
separately by `SyncMessage.buildFpr`. -/
structure BloomFilterModel where
  size : Nat
  added : List String
deriving DecidableEq

/-- BloomFilter.add records the ID, preserving insertion order. -/
def BloomFilterModel.add (f : BloomFilterModel) (id : String) : BloomFilterModel :=
  BloomFilterModel.mk f.size (f.added ++ [id])

/-- The message assembled by `SyncMessage.build`: exactly the fields the
builder passes to the constructor. Commit payloads are a type parameter. -/
structure SyncMessageModel (V : Type) where
  filter : BloomFilterModel
  size : Nat
  orgId : String
  values : List V

/-- One iteration of the scan loop in `SyncMessage.build`: add the ID to the
local filter, recount, and append the value when the peer filter misses it. -/
def buildScanStep {V : Type} (pf : String → Bool) (acc : BloomFilterModel × Nat × List V) (p : String × V) : BloomFilterModel × Nat × List V :=
  (acc.1.add p.1, acc.2.1 + 1, if pf p.1 then acc.2.2 else acc.2.2 ++ [p.2])

/-- SyncMessage.build, translated from the source: construct a fresh local
filter sized for `max(1, localSize, peerSize)`; only when a peer filter is
present and `includeMissing` is set, scan the values, adding each ID to the
local filter, recounting the size and collecting the values the peer filter
misses; otherwise the scan is skipped entirely. The `DataRegistry` argument
is opaque to the builder and omitted; `expectedSyncCycles` and `lowAccuracy`
feed only the real-valued FPR computation, modelled by `buildFpr`. -/
def SyncMessage.build {V : Type} (peerFilter : Option (String → Bool)) (values : List (String × V)) (localSize peerSize : Nat) (_expectedSyncCycles : Nat) (orgId : String) (includeMissing : Bool) (_lowAccuracy : Bool) : SyncMessageModel V :=
  let numberOfEntries := max 1 (max localSize peerSize)
  let localFilter := BloomFilterModel.mk numberOfEntries []
  match peerFilter with
  | some pf =>
    if includeMissing then
      let st := values.foldl (buildScanStep pf) (localFilter, 0, [])
      SyncMessageModel.mk st.1 st.2.1 orgId st.2.2
    else SyncMessageModel.mk localFilter localSize orgId []
  | none => SyncMessageModel.mk localFilter localSize orgId []

/-- The target false-positive rate computed inside `SyncMessage.build` and
`SyncMessage.buildAsync`, over the reals:
`lowAccuracy ? 0.5 : Math.min(0.5, 1 / Math.pow(numberOfEntries, 1 / (0.5 * expectedSyncCycles)))`. -/
noncomputable def SyncMessage.buildFpr (localSize peerSize : Nat) (expectedSyncCycles : ℝ) (lowAccuracy : Bool) : ℝ :=
  let numberOfEntries : Nat := max 1 (max localSize peerSize)
  if lowAccuracy then 0.5
  else min 0.5 (1 / (numberOfEntries : ℝ) ^ ((1 : ℝ) / (0.5 * expectedSyncCycles)))

/-- The wire envelope of a sync message as the decoder sees it: the build
version, the filter payload, the declared size, the optional ordered commit
array under the c key and the optional access-denied list under the ad key.
Raw commit payloads and the filter payload are type parameters. -/
structure RawSyncMessage (A F : Type) where
  ver : Nat
  f : F
  s : Nat
  c : Option (List A)
  ad : Option (List String)

/-- A decoded sync message with its reconstructed filter. -/
structure DecodedSyncMessage (V F' : Type) where
  buildVersion : Nat
  filter : F'
  size : Nat
  values : List V
  accessDenied : List String

/-- The commit-decoding loop of `SyncMessage.deserialize`: each commit is
decoded inside a try/catch, and a failing commit is skipped. Commit decoding
(`Commit.fromJS`, not among the provided sources) is passed as a fallible
function. -/
def decodeCommitsLoop {A V : Type} (dec : A → Option V) : List A → List V
  | [] => []
  | x :: xs =>
    match dec x with
    | some v => v :: decodeCommitsLoop dec xs
    | none => decodeCommitsLoop dec xs

/-- SyncMessage.deserialize: reconstructs the filter through the supplied
filter decoder, reads the size, defaults a missing ad key to the empty
list, and decodes the commits under the c key (defaulting to the empty
array) through the skipping loop. -/
def SyncMessage.deserialize {A F F' V : Type} (decodeFilter : F → F') (dec : A → Option V) (raw : RawSyncMessage A F) : DecodedSyncMessage V F' :=
  DecodedSyncMessage.mk raw.ver (decodeFilter raw.f) raw.s
    (decodeCommitsLoop dec (raw.c.getD []))
    (raw.ad.getD [])

/-- Modelled from the spec: `CoroutineScheduler.map` (from `coroutine.ts`,
not among the provided sources) applies the body to every element of the
array and returns when the entire input is processed; the spec assigns it no
per-element error recovery, so a failing body fails the whole map. -/
def schedulerMap {A V : Type} (body : A → Option V) : List A → Option (List V)
  | [] => some []
  | x :: xs =>
    match body x with
    | none => none
    | some v => (schedulerMap body xs).map (fun t => v :: t)

/-- SyncMessage.decodeAsync: reconstructs the filter, reads the size and the
ad default, and — when the c key is present — decodes the commits through
the scheduler's map, whose body calls `Commit.fromJS` with no try/catch;
a missing c key yields an undefined values array, which the constructor
defaults to empty. -/
def SyncMessage.decodeAsync {A F F' V : Type} (decodeFilter : F → F') (dec : A → Option V) (raw : RawSyncMessage A F) : Option (DecodedSyncMessage V F') :=
  match raw.c with
  | none => some (DecodedSyncMessage.mk raw.ver (decodeFilter raw.f) raw.s [] (raw.ad.getD []))
  | some l =>
    (schedulerMap dec l).map (fun vs =>
      DecodedSyncMessage.mk raw.ver (decodeFilter raw.f) raw.s vs (raw.ad.getD []))

/-! ### Reference definitions used to state the properties -/

/-- Strictly descending version order, the shape `registerSchema` maintains
for every namespace array. -/
def descByVersion {D : Type} : List (Schema D) → Bool
  | [] => true
  | [_] => true
  | a :: b :: t => decide (b.version < a.version) && descByVersion (b :: t)

/-- A schema manager is well formed when every namespace array is sorted by
strictly descending version; every manager reachable through
`registerSchema` satisfies this. -/
def SchemaManager.wfb {D : Type} (m : SchemaManager D) : Bool :=
  m.schemas.all (fun e => descByVersion e.2)

/-- The specified composition of per-step upgrades: walk the remaining chain
in ascending order, applying each step's upgrade function (where present) to
the running data, with the previous schema as the from argument; returns the
final data together with the last schema reached. -/
def applySteps {D : Type} : List (Schema D) → Schema D → D → D × Schema D
  | [], cur, d => (d, cur)
  | s :: t, cur, d =>
    applySteps t s
      (match s.upgrade with
       | some u => u d (cur.ns, cur.version)
       | none => d)

/-- Performing the per-step upgrades one at a time through the manager's own
`upgrade`: each consecutive registered schema is reached by a separate
single-target `upgrade` call, feeding each result into the next. -/
def stepwiseUpgrade {D : Type} (m : SchemaManager D) : D → Schema D → List (Schema D) → Option (D × Schema D)
  | d, s0, [] => some (d, s0)
  | d, s0, s :: t =>
    match m.upgrade d s0 (some s) with
    | none => none
    | some r => stepwiseUpgrade m r.1 r.2 t

/-! ### Concrete fixtures for witnesses and counterexamples -/

/-- A version-0 schema in namespace x. -/
def sx0 : Schema Nat := Schema.mk (some "x") 0 none

/-- A version-1 schema in namespace x, with no upgrade function. -/
def sx1 : Schema Nat := Schema.mk (some "x") 1 none

/-- A version-2 schema in namespace x, with no upgrade function. -/
def sx2 : Schema Nat := Schema.mk (some "x") 2 none

/-- A version-3 schema in namespace x, with no upgrade function. -/
def sx3 : Schema Nat := Schema.mk (some "x") 3 none

/-- A version-4 schema in namespace x, never registered anywhere below. -/
def sx4 : Schema Nat := Schema.mk (some "x") 4 none

/-- A version-2 schema whose upgrade function increments the data. -/
def w2 : Schema Nat := Schema.mk (some "x") 2 (some (fun d _ => d + 1))

/-- A version-3 schema whose upgrade function doubles the data. -/
def w3 : Schema Nat := Schema.mk (some "x") 3 (some (fun d _ => d * 2))

/-- A manager whose namespace x holds versions 2 and 0. -/
def mC7 : SchemaManager Nat := SchemaManager.mk [("x", [sx2, sx0])] []

/-- A manager whose namespace x holds only version 1. -/
def m8 : SchemaManager Nat := SchemaManager.mk [("x", [sx1])] []

/-- A manager whose namespace x holds versions 3 and 1 with version 2
missing. -/
def m8w : SchemaManager Nat := SchemaManager.mk [("x", [sx3, sx1])] []

/-- A manager whose namespace x holds the full chain of versions 1, 2, 3. -/
def mgr9 : SchemaManager Nat := SchemaManager.mk [("x", [w3, w2, sx1])] []

/-- A freshly constructed manager: no user auth rules registered. -/
def mgrFresh : SchemaManager Nat := SchemaManager.mk [] []

/-- A user rule that allows everything. -/
def ruleAllow : AuthRule := fun _ _ _ _ _ => true

/-- A commit decoder that fails exactly on the payload 999. -/
def decNat : Nat → Option Nat := fun n => if n == 999 then none else some n

/-- A raw sync message whose commit array holds one good and one corrupt
commit. -/
def cRaw : RawSyncMessage Nat Unit := RawSyncMessage.mk 1 () 2 (some [7, 999]) none

/-- A raw sync message with both the c and the ad keys absent. -/
def rawNoKeys : RawSyncMessage Nat Unit := RawSyncMessage.mk 1 () 0 none none

/-! ### Helper lemmas: decimal digits and parsing -/

theorem isDigitCh_digitChar (d : Nat) : isDigitCh (digitChar d) = true := by
  unfold digitChar
  split <;> rfl

theorem digitVal_digitChar (d : Nat) (h : d < 10) : digitVal (digitChar d) = d := by
  interval_cases d <;> rfl

theorem natDigitsRevAux_fuel :
    ∀ fuel fuel' n : Nat, n ≤ fuel → n ≤ fuel' →
      natDigitsRevAux fuel n = natDigitsRevAux fuel' n := by
  intro fuel
  induction fuel with
  | zero =>
    intro fuel' n h _
    have hn : n = 0 := by omega
    subst hn
    cases fuel' <;> simp [natDigitsRevAux]
  | succ f ih =>
    intro fuel' n h h'
    cases fuel' with
    | zero =>
      have hn : n = 0 := by omega
      subst hn
      simp [natDigitsRevAux]
    | succ f' =>
      simp only [natDigitsRevAux]
      by_cases hn : n = 0
      · simp [hn]
      · rw [if_neg hn, if_neg hn]
        have hd : n / 10 < n := Nat.div_lt_self (Nat.pos_of_ne_zero hn) (by decide)
        rw [ih f' (n / 10) (by omega) (by omega)]

theorem natDigitsRev_unfold (n : Nat) :
    natDigitsRev n = if n = 0 then [] else digitChar (n % 10) :: natDigitsRev (n / 10) := by
  by_cases hn : n = 0
  · subst hn
    rfl
  · rw [if_neg hn]
    unfold natDigitsRev
    rcases n with _ | n'
    · exact absurd rfl hn
    · simp only [natDigitsRevAux]
      rw [if_neg hn]
      have hd : (n' + 1) / 10 < n' + 1 :=
        Nat.div_lt_self (Nat.pos_of_ne_zero hn) (by decide)
      rw [natDigitsRevAux_fuel n' ((n' + 1) / 10) ((n' + 1) / 10) (by omega) (le_refl _)]

theorem mem_natDigitsRev_digit (n : Nat) : ∀ c ∈ natDigitsRev n, isDigitCh c = true := by
  induction n using Nat.strong_induction_on with
  | _ n ih =>
    rw [natDigitsRev_unfold]
    split
    · intro c hc
      exact absurd hc (List.not_mem_nil c)
    · rename_i h
      intro c hc
      rcases List.mem_cons.mp hc with h1 | h2
      · subst h1
        exact isDigitCh_digitChar _
      · exact ih (n / 10) (Nat.div_lt_self (Nat.pos_of_ne_zero h) (by decide)) c h2

theorem natDigitsRev_ne_nil (n : Nat) (h : n ≠ 0) : natDigitsRev n ≠ [] := by
  rw [natDigitsRev_unfold]
  rw [if_neg h]
  exact List.cons_ne_nil _ _

theorem foldl_digits_natDigitsRev (n : Nat) :
    ∀ a : Nat, ((natDigitsRev n).reverse).foldl (fun a c => 10 * a + digitVal c) a =
      a * 10 ^ (natDigitsRev n).length + n := by
  induction n using Nat.strong_induction_on with
  | _ n ih =>
    intro a
    rw [natDigitsRev_unfold]
    split
    · rename_i h
      subst h
      simp
    · rename_i h
      rw [List.reverse_cons, List.foldl_append]
      rw [ih (n / 10) (Nat.div_lt_self (Nat.pos_of_ne_zero h) (by decide)) a]
      simp only [List.foldl]
      rw [digitVal_digitChar _ (Nat.mod_lt n (by decide))]
      rw [List.length_cons, pow_succ]
      have hring : a * (10 ^ (natDigitsRev (n / 10)).length * 10) =
          10 * (a * 10 ^ (natDigitsRev (n / 10)).length) := by ring
      rw [hring]
      generalize a * 10 ^ (natDigitsRev (n / 10)).length = Y
      omega

theorem parse_natToChars (n : Nat) : parseLeadingNat (natToChars n) = some n := by
  unfold natToChars
  split
  · rename_i h
    subst h
    rfl
  · rename_i h
    unfold parseLeadingNat
    have hall : ∀ c ∈ (natDigitsRev n).reverse, isDigitCh c = true := by
      intro c hc
      exact mem_natDigitsRev_digit n c (List.mem_reverse.mp hc)
    rw [List.takeWhile_eq_self_iff.mpr hall]
    have hne : ((natDigitsRev n).reverse).isEmpty = false := by
      rw [List.isEmpty_eq_false]
      simpa using natDigitsRev_ne_nil n h
    simp only [hne, Bool.false_eq_true, if_false]
    rw [foldl_digits_natDigitsRev n 0]
    simp

theorem slash_not_mem_natToChars (n : Nat) : '/' ∉ natToChars n := by
  unfold natToChars
  split
  · decide
  · intro hmem
    have := mem_natDigitsRev_digit n '/' (List.mem_reverse.mp hmem)
    exact absurd this (by decide)

/-! ### Helper lemmas: splitting on a separator -/

theorem splitOnChar_ne_nil (c : Char) : ∀ l : List Char, splitOnChar c l ≠ []
  | [] => by simp [splitOnChar]
  | x :: xs => by
    simp only [splitOnChar]
    split
    · simp
    · split <;> simp

theorem splitOnChar_no_sep (c : Char) : ∀ a : List Char, c ∉ a → splitOnChar c a = [a]
  | [], _ => rfl
  | x :: xs, h => by
    have hx : x ≠ c := fun e => h (e ▸ List.mem_cons_self x xs)
    have ih := splitOnChar_no_sep c xs (fun m => h (List.mem_cons_of_mem x m))
    simp only [splitOnChar]
    rw [ih]
    simp [hx]

theorem splitOnChar_append (c : Char) :
    ∀ a b : List Char, c ∉ a → splitOnChar c (a ++ c :: b) = a :: splitOnChar c b
  | [], b, _ => by
    simp only [List.nil_append]
    rcases hsb : splitOnChar c b with _ | ⟨hh, t⟩
    · exact absurd hsb (splitOnChar_ne_nil c b)
    · simp only [splitOnChar]
      rw [hsb]
      simp
  | x :: xs, b, h => by
    have hx : x ≠ c := fun e => h (e ▸ List.mem_cons_self x xs)
    have ih := splitOnChar_append c xs b (fun m => h (List.mem_cons_of_mem x m))
    simp only [List.cons_append]
    simp only [splitOnChar]
    rw [ih]
    simp [hx]

/-! ### Helper lemmas: registry arrays -/

theorem find_version_of_mem {D : Type} (s : Schema D) :
    ∀ arr : List (Schema D), List.Pairwise (fun a b => a.version ≠ b.version) arr → s ∈ arr →
      arr.find? (fun x => x.version == s.version) = some s := by
  intro arr hpw hmem
  induction arr with
  | nil => cases hmem
  | cons a t ih =>
    rcases List.mem_cons.mp hmem with rfl | hmem'
    · simp [List.find?]
    · have hne : a.version ≠ s.version := (List.pairwise_cons.mp hpw).1 s hmem'
      have hfa : (a.version == s.version) = false := by simpa using hne
      rw [List.find?_cons_of_neg _ (by simp [hfa])]
      exact ih (List.pairwise_cons.mp hpw).2 hmem'

theorem descByVersion_tail {D : Type} (a : Schema D) (t : List (Schema D))
    (h : descByVersion (a :: t) = true) : descByVersion t = true := by
  cases t with
  | nil => rfl
  | cons b t' =>
    have := h
    unfold descByVersion at this
    exact (Bool.and_eq_true_iff.mp this).2

theorem descByVersion_head_lt {D : Type} (a b : Schema D) (t : List (Schema D))
    (h : descByVersion (a :: b :: t) = true) : b.version < a.version := by
  have := h
  unfold descByVersion at this
  simpa using (Bool.and_eq_true_iff.mp this).1

theorem descByVersion_head_le {D : Type} :
    ∀ (t : List (Schema D)) (a : Schema D), descByVersion (a :: t) = true →
      ∀ s ∈ a :: t, s.version ≤ a.version := by
  intro t
  induction t with
  | nil =>
    intro a _ s hs
    rcases List.mem_cons.mp hs with rfl | hs'
    · exact le_refl _
    · cases hs'
  | cons b t' ih =>
    intro a h s hs
    have h1 : b.version < a.version := descByVersion_head_lt a b t' h
    have h2 : descByVersion (b :: t') = true := descByVersion_tail a (b :: t') h
    rcases List.mem_cons.mp hs with rfl | hs'
    · exact le_refl _
    · exact le_trans (ih b h2 s hs') (le_of_lt h1)

theorem descByVersion_pairwise {D : Type} :
    ∀ l : List (Schema D), descByVersion l = true →
      List.Pairwise (fun a b => a.version ≠ b.version) l := by
  intro l
  induction l with
  | nil => intro _; exact List.Pairwise.nil
  | cons a t ih =>
    intro h
    refine List.pairwise_cons.mpr ⟨?_, ih (descByVersion_tail a t h)⟩
    intro s hs
    cases t with
    | nil => cases hs
    | cons b t' =>
      have h1 : b.version < a.version := descByVersion_head_lt a b t' h
      have h2 : s.version ≤ b.version :=
        descByVersion_head_le t' b (descByVersion_tail a (b :: t') h) s hs
      omega

theorem schemasFind_all {D : Type} (P : List (Schema D) → Bool) :
    ∀ (l : List (String × List (Schema D))) (n : String) (arr : List (Schema D)),
      l.all (fun e => P e.2) = true → schemasFind l n = some arr → P arr = true := by
  intro l
  induction l with
  | nil => intro n arr _ hf; cases hf
  | cons e t ih =>
    intro n arr hall hf
    rcases e with ⟨k, a⟩
    rw [List.all_cons] at hall
    have h1 := (Bool.and_eq_true_iff.mp hall).1
    have h2 := (Bool.and_eq_true_iff.mp hall).2
    unfold schemasFind at hf
    by_cases hk : k = n
    · rw [if_pos hk] at hf
      cases hf
      exact h1
    · rw [if_neg hk] at hf
      exact ih n arr h2 hf

theorem wfb_descByVersion {D : Type} (m : SchemaManager D) (n : String) (arr : List (Schema D))
    (hwf : m.wfb = true) (h : schemasFind m.schemas n = some arr) : descByVersion arr = true :=
  schemasFind_all descByVersion m.schemas n arr hwf h

/-! ### Helper lemmas: the build scan and the decode loops -/

theorem buildScan_foldl {V : Type} (pf : String → Bool) :
    ∀ (vals : List (String × V)) (f : BloomFilterModel) (c : Nat) (ms : List V),
      vals.foldl (buildScanStep pf) (f, c, ms) =
        (BloomFilterModel.mk f.size (f.added ++ vals.map Prod.fst), c + vals.length,
         ms ++ (vals.filter (fun p => !(pf p.1))).map Prod.snd) := by
  intro vals
  induction vals with
  | nil =>
    intro f c ms
    simp
  | cons p t ih =>
    intro f c ms
    rw [List.foldl_cons, ih]
    by_cases hp : pf p.1
    · simp [buildScanStep, BloomFilterModel.add, hp, List.filter_cons]
      omega
    · simp [buildScanStep, BloomFilterModel.add, hp, List.filter_cons]
      omega

theorem decodeCommitsLoop_eq_filterMap {A V : Type} (dec : A → Option V) :
    ∀ l : List A, decodeCommitsLoop dec l = l.filterMap dec := by
  intro l
  induction l with
  | nil => rfl
  | cons x xs ih =>
    simp only [decodeCommitsLoop, List.filterMap_cons]
    cases hd : dec x <;> simp [ih]

theorem schedulerMap_eq_none {A V : Type} (dec : A → Option V) :
    ∀ (l : List A) (x : A), x ∈ l → dec x = none → schedulerMap dec l = none := by
  intro l
  induction l with
  | nil => intro x hx; cases hx
  | cons a t ih =>
    intro x hx hd
    rcases List.mem_cons.mp hx with rfl | hx'
    · simp only [schedulerMap, hd]
    · simp only [schedulerMap]
      cases ha : dec a
      · rfl
      · rw [ih x hx' hd]
        rfl

/-! ### Helper lemmas: the upgrade walk -/

theorem upgradeLoop_unfold {D : Type} (m : SchemaManager D) (ns : String) (cur : Schema D) (d : D) (i stop : Nat) :
    upgradeLoop m ns cur d i stop =
      if i ≤ stop then
        match m.get ns (some i) with
        | none => none
        | some s =>
          upgradeLoop m ns s
            (match s.upgrade with
             | some u => u d (cur.ns, cur.version)
             | none => d)
            (i + 1) stop
      else some (d, cur) := by
  by_cases h : i ≤ stop
  · rw [if_pos h]
    unfold upgradeLoop
    have e1 : stop + 1 - i = (stop - i) + 1 := by omega
    have e2 : stop + 1 - (i + 1) = stop - i := by omega
    rw [e1, e2]
    rfl
  · rw [if_neg h]
    unfold upgradeLoop
    have e : stop + 1 - i = 0 := by omega
    rw [e]
    rfl

theorem upgradeLoop_missing {D : Type} (m : SchemaManager D) (ns : String) :
    ∀ (fuel start stop i : Nat), start ≤ i → i ≤ stop → m.get ns (some i) = none →
      stop + 1 - start ≤ fuel → ∀ (cur : Schema D) (d : D),
        upgradeLoop m ns cur d start stop = none := by
  intro fuel
  induction fuel with
  | zero =>
    intro start stop i h1 h2 _ hf
    omega
  | succ f ih =>
    intro start stop i h1 h2 hmiss hf cur d
    rw [upgradeLoop_unfold]
    rw [if_pos (by omega : start ≤ stop)]
    cases hg : m.get ns (some start) with
    | none => rfl
    | some s =>
      have hne : start ≠ i := by
        intro e
        rw [e, hmiss] at hg
        cases hg
      exact ih (start + 1) stop i (by omega) h2 hmiss (by omega) s _

theorem upgradeLoop_chain {D : Type} (m : SchemaManager D) (n : String) (chain : List (Schema D))
    (hget : ∀ (i : Nat) (h : i < chain.length), m.get n (some (i + 1)) = some chain[i]) :
    ∀ (fuel j : Nat) (hj : j < chain.length), chain.length - j ≤ fuel → ∀ d : D,
      upgradeLoop m n chain[j] d (j + 2) chain.length =
        some (applySteps (chain.drop (j + 1)) chain[j] d) := by
  intro fuel
  induction fuel with
  | zero =>
    intro j hj hle
    omega
  | succ f ih =>
    intro j hj hle d
    by_cases hcase : j + 2 ≤ chain.length
    · have hj1 : j + 1 < chain.length := by omega
      rw [upgradeLoop_unfold, if_pos hcase]
      have hg2 : m.get n (some (j + 2)) = some chain[j + 1] := hget (j + 1) hj1
      rw [hg2]
      rw [List.drop_eq_getElem_cons hj1]
      exact ih (j + 1) hj1 (by omega) _
    · rw [upgradeLoop_unfold, if_neg hcase]
      rw [List.drop_eq_nil_of_le (by omega)]
      rfl

theorem upgrade_single_step {D : Type} (m : SchemaManager D) (n : String) (chain : List (Schema D))
    (hget : ∀ (i : Nat) (h : i < chain.length), m.get n (some (i + 1)) = some chain[i])
    (hver : ∀ (i : Nat) (h : i < chain.length), (chain[i]).version = i + 1)
    (hns : ∀ (i : Nat) (h : i < chain.length), (chain[i]).ns = some n)
    (j : Nat) (hj1 : j + 1 < chain.length) (d : D) :
    m.upgrade d chain[j] (some chain[j + 1]) =
      some ((match (chain[j + 1]).upgrade with
             | some u => u d ((chain[j]).ns, (chain[j]).version)
             | none => d), chain[j + 1]) := by
  have hj : j < chain.length := by omega
  simp only [SchemaManager.upgrade, Option.some_bind, hns (j + 1) hj1, Option.isNone_some,
    Bool.false_and, Bool.false_eq_true, if_false, Option.map_some]
  have hnsOpt :
      (if nsTruthy (some n) then some n else (chain[j]).ns) = some n := by
    by_cases hn : n = ""
    · simp [nsTruthy, hn, hns j hj]
    · simp [nsTruthy, hn]
  have hg : m.get n (some ((chain[j + 1]).version)) = some chain[j + 1] := by
    rw [hver (j + 1) hj1]
    exact hget (j + 1) hj1
  have hne : ¬ ((chain[j + 1]).version = (chain[j]).version) := by
    rw [hver (j + 1) hj1, hver j hj]
    omega
  simp only [hnsOpt]
  rw [show Option.map Schema.version (some chain[j + 1]) = some ((chain[j + 1]).version) from rfl]
  rw [hg]
  show (if (chain[j + 1]).version = (chain[j]).version then some (d, chain[j])
        else upgradeLoop m n chain[j] (coreValueClone d) ((chain[j]).version + 1)
          ((chain[j + 1]).version)) = _
  rw [if_neg hne]
  have hstart : (chain[j]).version + 1 = j + 2 := by
    rw [hver j hj]
  have hstop : (chain[j + 1]).version = j + 2 := hver (j + 1) hj1
  rw [hstart, hstop]
  rw [upgradeLoop_unfold, if_pos (le_refl (j + 2))]
  have hg2 : m.get n (some (j + 2)) = some chain[j + 1] := hget (j + 1) hj1
  rw [hg2]
  show upgradeLoop m n chain[j + 1]
      (match (chain[j + 1]).upgrade with
       | some u => u (coreValueClone d) ((chain[j]).ns, (chain[j]).version)
       | none => coreValueClone d)
      (j + 2 + 1) (j + 2) = _
  rw [upgradeLoop_unfold, if_neg (by omega : ¬ (j + 2 + 1 ≤ j + 2))]
  rfl

theorem stepwise_chain {D : Type} (m : SchemaManager D) (n : String) (chain : List (Schema D))
    (hget : ∀ (i : Nat) (h : i < chain.length), m.get n (some (i + 1)) = some chain[i])
    (hver : ∀ (i : Nat) (h : i < chain.length), (chain[i]).version = i + 1)
    (hns : ∀ (i : Nat) (h : i < chain.length), (chain[i]).ns = some n) :
    ∀ (fuel j : Nat) (hj : j < chain.length), chain.length - j ≤ fuel → ∀ d : D,
      stepwiseUpgrade m d chain[j] (chain.drop (j + 1)) =
        some (applySteps (chain.drop (j + 1)) chain[j] d) := by
  intro fuel
  induction fuel with
  | zero =>
    intro j hj hle
    omega
  | succ f ih =>
    intro j hj hle d
    by_cases hj1 : j + 1 < chain.length
    · rw [List.drop_eq_getElem_cons hj1]
      simp only [stepwiseUpgrade]
      rw [upgrade_single_step m n chain hget hver hns j hj1 d]
      exact ih (j + 1) hj1 (by omega) _
    · rw [List.drop_eq_nil_of_le (by omega)]
      rfl

/-! ### Supporting lemma for schema markers -/

theorem decode_marker {D : Type} (m : SchemaManager D) (n : String) (v : Nat)
    (hslash : '/' ∉ n.data) :
    m.decode (String.mk (n.data ++ '/' :: natToChars v)) = m.get n (some v) := by
  have hneq : String.mk (n.data ++ '/' :: natToChars v) ≠ "null" := by
    intro he
    have hdata : n.data ++ '/' :: natToChars v = "null".data := congrArg String.data he
    have hsl : '/' ∈ "null".data := by
      rw [← hdata]
      exact List.mem_append_right _ (List.mem_cons_self _ _)
    exact absurd hsl (by decide)
  unfold SchemaManager.decode
  rw [if_neg hneq]
  show m.get (String.mk ((splitOnChar '/' (n.data ++ '/' :: natToChars v)).headD []))
      (((splitOnChar '/' (n.data ++ '/' :: natToChars v)).drop 1).head?.bind parseLeadingNat) =
    m.get n (some v)
  rw [splitOnChar_append '/' n.data (natToChars v) hslash]
  rw [splitOnChar_no_sep '/' (natToChars v) (slash_not_mem_natToChars v)]
  rw [show ((n.data :: [natToChars v]).drop 1).head?.bind parseLeadingNat =
      parseLeadingNat (natToChars v) from rfl]
  rw [parse_natToChars v]
  rfl

/-! ### The claims -/

/-- C1: the spec states that every input path whose repository id lies under
the sys prefix — other than the three named system repositories — resolves
to the builtin catch-all rule, which only the root session satisfies. In the
source, the builtin scan compares each builtin rule path against the
repository id with JavaScript strict equality, so the regular-expression
catch-all entry can never match there; with no user rules registered, the
resolver returns no rule at all and access is open to everyone. The theorem
evaluates the code at the failing input: the repository id of the path is a
sys path outside the three named repositories, yet resolution yields none
instead of the root-only catch-all rule. -/
theorem authRuleForRepo_sys_catchall_unreachable :
    itemPathGetRepoId "/sys/foo" = "/sys/foo"
  ∧ mgrFresh.authRuleForRepo "/sys/foo" = none :=
  ⟨rfl, rfl⟩

/-- C2: the spec states that when the peer filter is absent (or
includeMissing is false) the values iterator is still scanned and every
yielded ID is added to the fresh local filter. In the source the entire scan
sits inside `if (peerFilter && includeMissing)`, so in both of those cases
the iterator is never touched: the filter is emitted empty and the size is
the caller-passed localSize. The theorem evaluates the code at the failing
input: one value is supplied, yet no ID is added to the filter in either
branch. -/
theorem build_no_peer_filter_skips_scan :
    (SyncMessage.build none [("a", (0 : Nat))] 1 0 5 "org" true false).filter.added = []
  ∧ (SyncMessage.build none [("a", (0 : Nat))] 1 0 5 "org" true false).size = 1
  ∧ (SyncMessage.build none [("a", (0 : Nat))] 1 0 5 "org" true false).values = []
  ∧ (SyncMessage.build (some (fun _ => false)) [("a", (0 : Nat))] 1 0 5 "org" false
      false).filter.added = [] :=
  ⟨rfl, rfl, rfl, rfl⟩

/-- C3: the spec states that registering a second rule for the same exact
path fails while distinct paths succeed. The source loops over the existing
rules asserting `p === path` — that each existing path EQUALS the new one —
which is the inverse of its own error message: a second rule under a
distinct path throws, and re-registering the same path succeeds and
duplicates the entry. The theorem evaluates the code at the failing input:
after registering a rule for one path, registering a different path errors
while registering the same path again yields two entries for it. -/
theorem registerAuthRule_assert_inverted :
    (mgrFresh.registerAuthRule (RulePath.str "/data/a") ruleAllow).map
        (fun m => m.authRules.map Prod.fst) = Except.ok [RulePath.str "/data/a"]
  ∧ (mgrFresh.registerAuthRule (RulePath.str "/data/a") ruleAllow).bind
        (fun m => m.registerAuthRule (RulePath.str "/data/b") ruleAllow) =
      Except.error "Attempting to register multiple rules for the same path"
  ∧ ((mgrFresh.registerAuthRule (RulePath.str "/data/a") ruleAllow).bind
        (fun m => m.registerAuthRule (RulePath.str "/data/a") ruleAllow)).map
        (fun m => m.authRules.map Prod.fst) =
      Except.ok [RulePath.str "/data/a", RulePath.str "/data/a"] :=
  ⟨rfl, rfl, rfl⟩

/-- C4: with n the maximum of 1, the local size and the peer size, and C the
expected number of sync cycles, the build computes the filter's target
false-positive rate as exactly 0.5 under lowAccuracy, and otherwise as the
minimum of 0.5 and n to the power of minus one over half C — the source's
`1 / Math.pow(n, 1 / (0.5 * C))` rewritten with a negative exponent. -/
theorem buildFpr_formula (localSize peerSize : Nat) (C : ℝ) (la : Bool) (_hC : 0 < C) :
    SyncMessage.buildFpr localSize peerSize C la =
      if la then 0.5
      else min 0.5 (((max 1 (max localSize peerSize) : Nat) : ℝ) ^ (-((1 : ℝ) / (0.5 * C)))) := by
  unfold SyncMessage.buildFpr
  cases la
  · simp only [Bool.false_eq_true, if_false]
    congr 1
    rw [Real.rpow_neg (Nat.cast_nonneg _)]
    rw [one_div]
  · rfl

/-- C4 witness: the formula instantiated at local size 8, peer size 3 and
two expected cycles. -/
theorem buildFpr_formula_witness :
    (0 : ℝ) < 2 ∧
      SyncMessage.buildFpr 8 3 2 false = min 0.5 ((8 : ℝ) ^ (-((1 : ℝ) / (0.5 * 2)))) := by
  constructor
  · norm_num
  · have h := buildFpr_formula 8 3 2 false (by norm_num)
    have h2 : (max 1 (max 8 3) : Nat) = 8 := rfl
    rw [h2] at h
    simpa using h

/-- C5: with a peer filter present and includeMissing set, the build scans
the iterator and, in iterator order, adds every yielded ID to the local
filter, appends a value to the outgoing message exactly when the peer filter
misses its ID, recounts the size as the number of yielded pairs, and stamps
the message with the given organization id. -/
theorem build_includeMissing_scan_spec {V : Type} (pf : String → Bool)
    (vals : List (String × V)) (ls ps ec : Nat) (org : String) (la : Bool) :
    (SyncMessage.build (some pf) vals ls ps ec org true la).filter.added = vals.map Prod.fst
  ∧ (SyncMessage.build (some pf) vals ls ps ec org true la).values =
      (vals.filter (fun p => !(pf p.1))).map Prod.snd
  ∧ (SyncMessage.build (some pf) vals ls ps ec org true la).size = vals.length
  ∧ (SyncMessage.build (some pf) vals ls ps ec org true la).orgId = org := by
  refine ⟨?_, ?_, ?_, rfl⟩
  · show (vals.foldl (buildScanStep pf)
        (BloomFilterModel.mk (max 1 (max ls ps)) [], 0, ([] : List V))).1.added =
      vals.map Prod.fst
    rw [buildScan_foldl]
    simp
  · show (vals.foldl (buildScanStep pf)
        (BloomFilterModel.mk (max 1 (max ls ps)) [], 0, ([] : List V))).2.2 =
      (vals.filter (fun p => !(pf p.1))).map Prod.snd
    rw [buildScan_foldl]
    simp
  · show (vals.foldl (buildScanStep pf)
        (BloomFilterModel.mk (max 1 (max ls ps)) [], 0, ([] : List V))).2.1 = vals.length
    rw [buildScan_foldl]
    simp

/-- C6 amended: the synchronous deserialize path decodes each commit inside
a try/catch and skips any commit whose decode fails, yielding the remaining
commits; the streaming decodeAsync path, whose body calls the commit decoder
with no try/catch inside the scheduler's map, instead fails as a whole when
any commit decode fails. In both paths the filter is always reconstructed,
absence of the c key yields an empty values array and absence of the ad key
yields an empty access-denied list. -/
theorem deserialize_tolerance_amended {A F F' V : Type} (df : F → F') (dec : A → Option V)
    (raw : RawSyncMessage A F) :
    (SyncMessage.deserialize df dec raw).values = (raw.c.getD []).filterMap dec
  ∧ (SyncMessage.deserialize df dec raw).filter = df raw.f
  ∧ (raw.c = none → (SyncMessage.deserialize df dec raw).values = [])
  ∧ (raw.ad = none → (SyncMessage.deserialize df dec raw).accessDenied = [])
  ∧ (∀ x ∈ raw.c.getD [], dec x = none → SyncMessage.decodeAsync df dec raw = none)
  ∧ (∀ msg : DecodedSyncMessage V F', SyncMessage.decodeAsync df dec raw = some msg →
      msg.filter = df raw.f ∧ msg.accessDenied = raw.ad.getD [])
  ∧ (raw.c = none → SyncMessage.decodeAsync df dec raw =
      some (DecodedSyncMessage.mk raw.ver (df raw.f) raw.s [] (raw.ad.getD []))) := by
  refine ⟨decodeCommitsLoop_eq_filterMap dec _, rfl, ?_, ?_, ?_, ?_, ?_⟩
  · intro h
    show decodeCommitsLoop dec (raw.c.getD []) = []
    rw [h]
    rfl
  · intro h
    show raw.ad.getD [] = []
    rw [h]
    rfl
  · intro x hx hd
    cases hc : raw.c with
    | none =>
      rw [hc] at hx
      exact absurd hx (List.not_mem_nil x)
    | some l =>
      rw [hc] at hx
      have hx' : x ∈ l := hx
      unfold SyncMessage.decodeAsync
      rw [hc]
      show (schedulerMap dec l).map
          (fun vs => DecodedSyncMessage.mk raw.ver (df raw.f) raw.s vs (raw.ad.getD [])) = none
      rw [schedulerMap_eq_none dec l x hx' hd]
      rfl
  · intro msg h
    unfold SyncMessage.decodeAsync at h
    cases hc : raw.c with
    | none =>
      rw [hc] at h
      have h2 := Option.some.inj h
      rw [← h2]
      exact ⟨rfl, rfl⟩
    | some l =>
      rw [hc] at h
      have h3 : (schedulerMap dec l).map
          (fun vs => DecodedSyncMessage.mk raw.ver (df raw.f) raw.s vs (raw.ad.getD [])) =
          some msg := h
      rcases Option.map_eq_some'.mp h3 with ⟨vs, _, hmsg⟩
      rw [← hmsg]
      exact ⟨rfl, rfl⟩
  · intro h
    unfold SyncMessage.decodeAsync
    rw [h]

/-- C6 counterexample: the claim as frozen asserts that the streaming
decodeAsync path also skips a failing commit. On a message holding one good
commit and one whose decode fails, the synchronous path yields the surviving
commit but decodeAsync yields nothing at all. -/
theorem decodeAsync_not_tolerant_cex :
    decNat 999 = none
  ∧ (SyncMessage.deserialize (fun u : Unit => u) decNat cRaw).values = [7]
  ∧ SyncMessage.decodeAsync (fun u : Unit => u) decNat cRaw = none :=
  ⟨rfl, rfl, rfl⟩

/-- C6 witness: the amended theorem applied to a message with both optional
keys absent. -/
theorem deserialize_tolerance_amended_witness :
    (SyncMessage.deserialize (fun u : Unit => u) decNat rawNoKeys).values = []
  ∧ (SyncMessage.deserialize (fun u : Unit => u) decNat rawNoKeys).accessDenied = []
  ∧ SyncMessage.decodeAsync (fun u : Unit => u) decNat rawNoKeys =
      some (DecodedSyncMessage.mk 1 () 0 [] []) := by
  have h := deserialize_tolerance_amended (fun u : Unit => u) decNat rawNoKeys
  exact ⟨h.2.2.1 rfl, h.2.2.2.1 rfl, h.2.2.2.2.2.2 rfl⟩

/-- C7 amended: decoding the encoded marker returns the schema itself for
every registered schema whose version is nonzero and whose namespace
contains no slash; the null schema round-trips through its literal marker;
and the marker of an unregistered namespace-version pair with nonzero
version and slash-free namespace decodes to none. The version-zero and
slash exclusions are forced by the source: `get` treats a version of 0 as
falsy and returns the newest entry, and `split` cuts a namespace at its
first slash. -/
theorem decode_encode_roundtrip_amended {D : Type} (m : SchemaManager D) (hwf : m.wfb = true) :
    (∀ (n : String) (arr : List (Schema D)) (s : Schema D),
        schemasFind m.schemas n = some arr → s ∈ arr → s.ns = some n → s.version ≠ 0 →
        '/' ∉ n.data → m.decode (m.encode s) = some s)
  ∧ m.decode (m.encode (kNullSchema D)) = some (kNullSchema D)
  ∧ (∀ (n : String) (v : Nat), v ≠ 0 → '/' ∉ n.data → m.get n (some v) = none →
      m.decode (m.encode (Schema.mk (some n) v none)) = none) := by
  refine ⟨?_, rfl, ?_⟩
  · intro n arr s harr hmem hns hv hslash
    have henc : m.encode s = String.mk (n.data ++ '/' :: natToChars s.version) := by
      unfold SchemaManager.encode
      rw [hns]
    rw [henc, decode_marker m n s.version hslash]
    unfold SchemaManager.get
    rw [harr]
    show (if s.version = 0 then arr.head? else arr.find? (fun x => x.version == s.version)) =
      some s
    rw [if_neg hv]
    exact find_version_of_mem s arr
      (descByVersion_pairwise arr (wfb_descByVersion m n arr hwf harr)) hmem
  · intro n v hv hslash hmiss
    have henc : m.encode (Schema.mk (some n) v none) =
        String.mk (n.data ++ '/' :: natToChars v) := rfl
    rw [henc, decode_marker m n v hslash]
    exact hmiss

/-- C7 counterexample: the claim as frozen asserts the round-trip for every
registered schema. A registered version-0 schema breaks it: its marker ends
in zero, `parseInt` yields 0, and the falsy version check makes `get` return
the newest schema of the namespace instead of the version-0 entry. -/
theorem decode_encode_version_zero_cex :
    sx0 ∈ [sx2, sx0]
  ∧ schemasFind mC7.schemas "x" = some [sx2, sx0]
  ∧ mC7.decode (mC7.encode sx0) = some sx2
  ∧ mC7.decode (mC7.encode sx0) ≠ some sx0 := by
  refine ⟨List.Mem.tail _ (List.Mem.head _), rfl, rfl, ?_⟩
  intro h
  have h5 : sx2 = sx0 :=
    Option.some.inj ((show mC7.decode (mC7.encode sx0) = some sx2 from rfl).symm.trans h)
  exact absurd (congrArg Schema.version h5) (by decide)

/-- C7 witness: the amended round-trip applied to the registered version-2
schema, and the unregistered-pair clause applied to the never-registered
version 1 of the same namespace. -/
theorem decode_encode_roundtrip_amended_witness :
    mC7.decode (mC7.encode sx2) = some sx2
  ∧ mC7.decode (mC7.encode (Schema.mk (some "x") 1 none)) = none := by
  have h := decode_encode_roundtrip_amended mC7 rfl
  exact ⟨h.1 "x" [sx2, sx0] sx2 rfl (List.Mem.head _) rfl (by decide) (by decide),
    h.2.2 "x" 1 (by decide) (by decide) rfl⟩

/-- C8 amended: when the lookup of the target version (or, with no target
given, of the newest schema for the namespace) succeeds, and some version
strictly between the data schema's version and the looked-up version is not
registered, the upgrade returns none. The success-of-lookup proviso is
forced by the source: with an unregistered target version the lookup yields
undefined and upgrade returns the data unchanged rather than failing. -/
theorem upgrade_missing_intermediate_amended {D : Type} (m : SchemaManager D) (d : D)
    (s : Schema D) (targetSchema : Option (Schema D)) (n : String) (latest : Schema D) (i : Nat)
    (hns : s.ns = some n)
    (htns : ∀ t ∈ targetSchema, t.ns = some n)
    (hlatest : m.get n (targetSchema.map Schema.version) = some latest)
    (hi1 : s.version < i) (hi2 : i < latest.version)
    (hmiss : m.get n (some i) = none) :
    m.upgrade d s targetSchema = none := by
  unfold SchemaManager.upgrade
  rw [hns]
  simp only [Option.isNone_some, Bool.and_false, Bool.false_eq_true, if_false]
  have hnsOpt : (if nsTruthy (targetSchema.bind Schema.ns) then targetSchema.bind Schema.ns
      else some n) = some n := by
    cases targetSchema with
    | none => rfl
    | some t =>
      have ht : t.ns = some n := htns t rfl
      simp only [Option.some_bind, ht]
      split <;> rfl
  simp only [hnsOpt]
  rw [hlatest]
  show (if latest.version = s.version then some (d, s)
        else upgradeLoop m n s (coreValueClone d) (s.version + 1) latest.version) = none
  rw [if_neg (by omega : ¬ latest.version = s.version)]
  exact upgradeLoop_missing m n (latest.version + 1 - (s.version + 1)) (s.version + 1)
    latest.version i (by omega) (by omega) hmiss (by omega) s (coreValueClone d)

/-- C8 counterexample: the claim as frozen has no registered-target proviso.
With only version 1 registered, a target schema at the unregistered version
4 and version 2 missing strictly between them, the upgrade returns the data
unchanged with its original schema instead of none. -/
theorem upgrade_unregistered_target_cex :
    m8.get "x" (some 2) = none
  ∧ sx1.version < sx4.version
  ∧ sx4.ns = sx1.ns
  ∧ m8.upgrade (0 : Nat) sx1 (some sx4) = some (0, sx1) :=
  ⟨rfl, by decide, rfl, rfl⟩

/-- C8 witness: the amended theorem applied to a registry holding versions 1
and 3 of one namespace with version 2 missing. -/
theorem upgrade_missing_intermediate_amended_witness :
    m8w.upgrade (0 : Nat) sx1 (some sx3) = none :=
  upgrade_missing_intermediate_amended m8w 0 sx1 (some sx3) "x" sx3 2 rfl
    (fun t ht => by rw [← Option.some.inj ht]; rfl) rfl (by decide) (by decide) rfl

/-- C9: over a fully registered chain of versions 1 through k in one
namespace, upgrading data at version 1 to the version-k schema succeeds and
returns the composition, in ascending version order, of each step's upgrade
function applied to the running data; and this equals performing the
per-step upgrades one at a time through separate upgrade calls. Cloning is
the identity in the pure value model, so the result is the plain fold of
the step functions over the input data. -/
theorem upgrade_full_chain_succeeds {D : Type} (m : SchemaManager D) (n : String)
    (chain : List (Schema D)) (d : D) (hlen : 0 < chain.length)
    (hget : ∀ (i : Nat) (h : i < chain.length), m.get n (some (i + 1)) = some chain[i])
    (hver : ∀ (i : Nat) (h : i < chain.length), (chain[i]).version = i + 1)
    (hns : ∀ (i : Nat) (h : i < chain.length), (chain[i]).ns = some n) :
    m.upgrade d chain[0] (some chain[chain.length - 1]) =
        some (applySteps (chain.drop 1) chain[0] d)
  ∧ m.upgrade d chain[0] (some chain[chain.length - 1]) =
      stepwiseUpgrade m d chain[0] (chain.drop 1) := by
  have hk1 : chain.length - 1 < chain.length := by omega
  have hmain : m.upgrade d chain[0] (some chain[chain.length - 1]) =
      some (applySteps (chain.drop 1) chain[0] d) := by
    simp only [SchemaManager.upgrade, Option.some_bind, hns (chain.length - 1) hk1,
      Option.isNone_some, Bool.false_and, Bool.false_eq_true, if_false]
    have hnsOpt : (if nsTruthy (some n) then some n else (chain[0]).ns) = some n := by
      by_cases hn : n = ""
      · simp [nsTruthy, hn, hns 0 hlen]
      · simp [nsTruthy, hn]
    simp only [hnsOpt]
    rw [show Option.map Schema.version (some chain[chain.length - 1]) =
        some ((chain[chain.length - 1]).version) from rfl]
    have hg : m.get n (some ((chain[chain.length - 1]).version)) =
        some chain[chain.length - 1] := by
      rw [hver (chain.length - 1) hk1]
      exact hget (chain.length - 1) hk1
    rw [hg]
    show (if (chain[chain.length - 1]).version = (chain[0]).version then some (d, chain[0])
          else upgradeLoop m n chain[0] (coreValueClone d) ((chain[0]).version + 1)
            ((chain[chain.length - 1]).version)) = _
    by_cases hk : chain.length = 1
    · have hveq : (chain[chain.length - 1]).version = (chain[0]).version := by
        rw [hver (chain.length - 1) hk1, hver 0 hlen]
        omega
      rw [if_pos hveq]
      rw [List.drop_eq_nil_of_le (by omega)]
      rfl
    · have hvne : ¬ ((chain[chain.length - 1]).version = (chain[0]).version) := by
        rw [hver (chain.length - 1) hk1, hver 0 hlen]
        omega
      rw [if_neg hvne]
      rw [hver 0 hlen, hver (chain.length - 1) hk1]
      have e : chain.length - 1 + 1 = chain.length := by omega
      rw [e]
      exact upgradeLoop_chain m n chain hget chain.length 0 hlen (by omega) (coreValueClone d)
  refine ⟨hmain, ?_⟩
  rw [hmain]
  exact (stepwise_chain m n chain hget hver hns chain.length 0 hlen (by omega) d).symm

/-- C9 witness: the full-chain theorem applied to versions 1, 2, 3 of one
namespace whose step functions increment and then double: upgrading the
value 5 from version 1 to version 3 yields 12 at the version-3 schema, and
equals the two single-step upgrades chained. -/
theorem upgrade_full_chain_succeeds_witness :
    mgr9.upgrade (5 : Nat) sx1 (some w3) = some (12, w3)
  ∧ mgr9.upgrade (5 : Nat) sx1 (some w3) = stepwiseUpgrade mgr9 5 sx1 [w2, w3] := by
  have h := upgrade_full_chain_succeeds mgr9 "x" [sx1, w2, w3] 5 (by decide)
    (by
      intro i hi
      have hi' : i < 3 := hi
      interval_cases i <;> rfl)
    (by
      intro i hi
      have hi' : i < 3 := hi
      interval_cases i <;> rfl)
    (by
      intro i hi
      have hi' : i < 3 := hi
      interval_cases i <;> rfl)
  exact ⟨h.1, h.2⟩

/-- C10: a version argument of 0 is falsy in the source's
`version ? arr.find(...) : arr[0]`, so for a namespace with at least one
registered schema, `get` at version 0 returns exactly what `get` with the
version omitted returns: the first entry of the descending-sorted array,
which is the highest-version schema of the namespace. -/
theorem get_version_zero_latest {D : Type} (m : SchemaManager D) (n : String)
    (arr : List (Schema D)) (harr : schemasFind m.schemas n = some arr) (hwf : m.wfb = true)
    (hne : arr ≠ []) :
    m.get n (some 0) = m.get n none
  ∧ ∃ u, m.get n (some 0) = some u ∧ ∀ s ∈ arr, s.version ≤ u.version := by
  have hdesc := wfb_descByVersion m n arr hwf harr
  have h0 : m.get n (some 0) = arr.head? := by
    unfold SchemaManager.get
    rw [harr]
    rfl
  have hn : m.get n none = arr.head? := by
    unfold SchemaManager.get
    rw [harr]
  refine ⟨h0.trans hn.symm, ?_⟩
  cases arr with
  | nil => exact absurd rfl hne
  | cons a t =>
    refine ⟨a, h0.trans rfl, ?_⟩
    exact descByVersion_head_le t a hdesc

/-- C10 witness: the theorem applied to a namespace holding versions 2 and
0; version 0 queries return the version-2 entry, the newest. -/
theorem get_version_zero_latest_witness :
    mC7.get "x" (some 0) = mC7.get "x" none
  ∧ ∃ u, mC7.get "x" (some 0) = some u ∧ ∀ s ∈ [sx2, sx0], s.version ≤ u.version :=
  get_version_zero_latest mC7 "x" [sx2, sx0] rfl rfl (List.cons_ne_nil _ _)
